import Mathlib

/-!
Verification of the on-demand HLS segmenting and transcoding core of the
hls-vod-too media server (TypeScript sources under src/).

Modelling conventions:
- JavaScript numbers are modelled as exact rationals; all inputs exercised
  by the theorems below keep every intermediate value exactly representable
  in IEEE double precision, so the rational computation agrees with the
  float computation of the source on those inputs.
- JavaScript Map objects (string keyed, insertion ordered) are modelled as
  association lists in insertion order.
- Asynchronous promise-based control flow of the LRU cache map is modelled
  as a small-step transition system, one key at a time.
-/

namespace HlsVodSpec

/-! ## Segmentation planner: MediaInfo.convertToSegments (src/MediaInfo.ts, lines 46-87) -/

/-- The inner loop of the subdivide branch (MediaInfo.ts lines 64-67):
starting from lastTime, repeatedly do lastTime += durationOfEach and push
lastTime, for the given number of iterations. The accumulation is kept as
repeated addition, exactly like the source. -/
def pushEvenlySpaced (lastTime durationOfEach : ℚ) : ℕ → List ℚ
  | 0 => []
  | n + 1 =>
    (lastTime + durationOfEach) :: pushEvenlySpaced (lastTime + durationOfEach) durationOfEach n

/-- The main loop of convertToSegments (MediaInfo.ts lines 54-73): walk the
candidate times in order, keeping the time of the last emitted boundary.
A candidate closer than minSegmentLength is skipped; one closer than
maxSegmentLength is emitted as is; otherwise the gap is divided into
ceil(gap / segmentLength) equal parts (Math.ceil is the ceiling on ℚ here)
and the interior boundaries are emitted before the candidate itself. -/
def planLoop (segmentLength minSegmentLength maxSegmentLength : ℚ) :
    List ℚ → ℚ → List ℚ
  | [], _ => []
  | time :: rest, lastTime =>
    if time - lastTime < minSegmentLength then
      planLoop segmentLength minSegmentLength maxSegmentLength rest lastTime
    else if time - lastTime < maxSegmentLength then
      time :: planLoop segmentLength minSegmentLength maxSegmentLength rest time
    else
      let numOfSegmentsNeeded : ℤ := ⌈(time - lastTime) / segmentLength⌉
      let durationOfEach : ℚ := (time - lastTime) / (numOfSegmentsNeeded : ℚ)
      pushEvenlySpaced lastTime durationOfEach (numOfSegmentsNeeded - 1).toNat
        ++ time :: planLoop segmentLength minSegmentLength maxSegmentLength rest time

/-- MediaInfo.convertToSegments (MediaInfo.ts lines 46-87). The candidate
list is the raw I-frame list with the duration appended; the output starts
with 0. After the loop, if more than one boundary was produced, the final
element is popped; if the distance from the new final element to the
duration exceeds maxSegmentLength a midpoint is inserted; in every case the
duration is pushed back at the end. -/
def convertToSegments (rawTimeList : List ℚ) (duration : ℚ)
    (segmentLength : ℚ := 3.5) (segmentOffset : ℚ := 1.25) : List ℚ :=
  let minSegmentLength := segmentLength - segmentOffset
  let maxSegmentLength := segmentLength + segmentOffset
  let timeList := rawTimeList ++ [duration]
  let segmentStartTimes :=
    0 :: planLoop segmentLength minSegmentLength maxSegmentLength timeList 0
  if 1 < segmentStartTimes.length then
    let popped := segmentStartTimes.dropLast
    let lastSegmentLength := duration - (popped.getLast?.getD 0)
    if maxSegmentLength < lastSegmentLength then
      popped ++ [duration - lastSegmentLength / 2, duration]
    else
      popped ++ [duration]
  else
    segmentStartTimes ++ [duration]

/-- The list of consecutive differences of a list of timestamps. -/
def consecutiveGaps (l : List ℚ) : List ℚ :=
  List.zipWith (fun a b => b - a) l l.tail

/-! ## Segment status bytes (MediaBackend.ts lines 36-37) -/

def EMPTY : ℕ := 0

def DONE : ℕ := 255

/-! ## Decimal digit strings, for segment file names

MediaBackend.getSegment (line 310) computes the on-disk file name of
segment i as the preset name, a dash, the string
((i + 1e5) % 1e6).toString().substr(1) and the extension .ts, while
ffmpeg names the files it produces with the printf pattern
preset-%05d.ts (startTranscode, line 128). We model decimal digit
strings of naturals from first principles so everything evaluates inside
the kernel. -/

/-- Decimal digits of a natural number, most significant first, with
explicit structural fuel so the kernel can evaluate it. -/
def decDigitsAux : ℕ → ℕ → List Char
  | 0, _ => []
  | fuel + 1, n =>
    if n < 10 then [Nat.digitChar n]
    else decDigitsAux fuel (n / 10) ++ [Nat.digitChar (n % 10)]

/-- Decimal digit string of a natural number, most significant digit
first; this is JS Number.prototype.toString for naturals. -/
def decDigits (n : ℕ) : List Char := decDigitsAux (n + 1) n

/-- The last k decimal digits of a natural number, zero padded to
exactly k characters, most significant first. -/
def padDigits : ℕ → ℕ → List Char
  | 0, _ => []
  | k + 1, n => padDigits k (n / 10) ++ [Nat.digitChar (n % 10)]

/-- The file name getSegment serves for segment index i
(MediaBackend.ts line 310): preset-((i + 1e5) % 1e6).toString().substr(1)
followed by .ts. -/
def getSegmentFileName (presetName : String) (segmentIndex : ℕ) : String :=
  presetName ++ "-" ++
    String.mk ((decDigits ((segmentIndex + 100000) % 1000000)).drop 1) ++ ".ts"

/-- The file name ffmpeg writes for segment index i under the output
pattern preset-%05d.ts (MediaBackend.ts line 128): the decimal digits of
i, left padded with zeros to at least five characters (printf %05d
semantics, modelling the external ffmpeg collaborator). -/
def ffmpegSegmentFileName (presetName : String) (segmentIndex : ℕ) : String :=
  presetName ++ "-" ++
    String.mk (List.replicate (5 - (decDigits segmentIndex).length) '0'
      ++ decDigits segmentIndex) ++ ".ts"

/-! ## startTranscode end index (MediaBackend.ts lines 85-92) -/

/-- The scan loop of startTranscode (lines 87-92) restricted to the
suffix of segmentStatus starting right after startAt: the offset of the
first entry that is not EMPTY, if any. -/
def firstNonEmptyOffset : List ℕ → Option ℕ
  | [] => none
  | b :: rest =>
    if b ≠ EMPTY then some 0
    else (firstNonEmptyOffset rest).map (· + 1)

/-- The end index chosen by startTranscode (lines 85-92): endAt starts as
min(segment count, startAt + 512); the loop over i from startAt + 1 up to
the segment count assigns endAt := i for the first i whose status is not
EMPTY and breaks. Note the loop does not stop at the initial clamp. -/
def startTranscodeEndAt (segmentStatus : List ℕ) (startAt : ℕ) : ℕ :=
  match firstNonEmptyOffset (segmentStatus.drop (startAt + 1)) with
  | some j => startAt + 1 + j
  | none => min segmentStatus.length (startAt + 512)

/-! ## Quality presets and the master manifest (src/MediaBackend.ts part two: VideoInfo) -/

structure QualityLevelPreset where
  name : String
  resolution : ℕ
  videoBitrate : ℕ
  audioBitrate : ℕ
deriving DecidableEq

structure QualityLevel where
  preset : QualityLevelPreset
  width : ℕ
  height : ℕ
deriving DecidableEq

/-- The fixed preset table (VideoInfo, lines 378-384). The literal list is
already in the order produced by the descending sort of the source. -/
def qualityLevelPresets : List QualityLevelPreset :=
  [⟨"1080p-extra", 1080, 14400, 320⟩,
   ⟨"1080p", 1080, 9600, 224⟩,
   ⟨"720p", 720, 4800, 160⟩,
   ⟨"480p", 480, 2400, 128⟩,
   ⟨"360p", 360, 1200, 112⟩]

/-- Line separator used by the manifests (os.EOL on the target platform). -/
def osEOL : String := "\n"

/-- The lines of VideoInfo.getMasterManifest (lines 466-475): the EXTM3U
header, then for each quality level one EXT-X-STREAM-INF line, whose
BANDWIDTH is Math.ceil((videoBitrate + audioBitrate) * 1.05), and the
relative variant URL. -/
def masterManifestLines (qualityLevels : List (String × QualityLevel)) : List String :=
  "#EXTM3U" :: qualityLevels.flatMap (fun entry =>
    ["#EXT-X-STREAM-INF:BANDWIDTH=" ++
        toString (⌈((entry.2.preset.videoBitrate + entry.2.preset.audioBitrate : ℕ) : ℚ) * 1.05⌉) ++
        ",RESOLUTION=" ++ toString entry.2.width ++ "x" ++ toString entry.2.height ++
        ",NAME=" ++ entry.1,
     "quality-" ++ entry.1 ++ ".m3u8"])

/-- VideoInfo.getMasterManifest (lines 466-475): the lines joined with the
OS line separator. -/
def getMasterManifest (qualityLevels : List (String × QualityLevel)) : String :=
  String.intercalate osEOL (masterManifestLines qualityLevels)

/-! ## Quality backend lookup (VideoInfo.getBackendByQualityLevel,
MediaBackend.ts part two lines 455-464, and
AudioInfo.getBackendByQualityLevel, src/unnamed/part_001 lines 39-46) -/

/-- VideoInfo.getBackendByQualityLevel: looks the name up in the
qualityLevels map and asserts it exists (assert(level, ...)); an unknown
name throws, which the HTTP layer surfaces as a 500. The quality level
itself stands in for the lazily constructed backend. -/
def videoGetBackendByQualityLevel (qualityLevels : List (String × QualityLevel))
    (level : String) : Except String QualityLevel :=
  match List.lookup level qualityLevels with
  | none => Except.error "Quality level not exists."
  | some l => Except.ok l

/-- Name of the single audio preset (src/unnamed/part_001 line 8). -/
def audioPresetName : String := "audio"

/-- AudioInfo.getBackendByQualityLevel (part_001 lines 39-46): declares an
uninitialised local, assigns the backend only when the requested level
equals the audio preset name, and returns the local through the non-null
cast. There is no assertion: for any other level the function returns
normally with the value undefined, modelled as none. -/
def audioGetBackendByQualityLevel {B : Type} (backend : B) (level : String) : Option B :=
  if audioPresetName == level then some backend else none

/-! ## Client records of a quality backend (MediaBackend.ts lines 30-34,
297-305 and 330-349) -/

/-- ClientStatus (MediaBackend.ts lines 30-34). The transcoder field is an
opaque process identifier here; the modelled operations never read it. -/
structure ClientStatus where
  head : ℤ
  transcoder : Option ℕ := none
  deleted : Bool := false
deriving DecidableEq

/-- JS Map.set: update in place when the key exists (keeping its
position), append at the tail otherwise. -/
def mapSet {α : Type} (m : List (String × α)) (k : String) (v : α) :
    List (String × α) :=
  if (List.lookup k m).isSome then
    m.map (fun e => if e.1 == k then (k, v) else e)
  else
    m ++ [(k, v)]

/-- JS Map.delete: remove the entry with the given key. -/
def mapDelete {α : Type} (m : List (String × α)) (k : String) :
    List (String × α) :=
  m.filter (fun e => e.1 != k)

/-- Outcome of the client-record check at the top of getSegment. -/
inductive SegmentRequestOutcome
  | proceed (clients : List (String × ClientStatus))
  | conflict (code : ℕ)
deriving DecidableEq

/-- The client-record check at the top of MediaBackend.getSegment
(lines 297-305): a missing record is created with head = -1 and the
request proceeds; a record marked deleted answers 409. -/
def getSegmentClientCheck (clients : List (String × ClientStatus))
    (clientId : String) : SegmentRequestOutcome :=
  match List.lookup clientId clients with
  | none => .proceed (mapSet clients clientId ⟨-1, none, false⟩)
  | some clientInfo =>
    if clientInfo.deleted then .conflict 409 else .proceed clients

/-- The record mutation of MediaBackend.removeClient (lines 330-349): an
already-deleted record is left alone; an existing record is marked
deleted; a missing record gets a pre-deleted stub with head = -1. The
debounced recalculation and the 1 second delayed record removal are not
part of the modelled map state. -/
def removeClientMark (clients : List (String × ClientStatus))
    (clientId : String) : List (String × ClientStatus) :=
  match List.lookup clientId clients with
  | some status =>
    if status.deleted then clients
    else mapSet clients clientId ⟨status.head, status.transcoder, true⟩
  | none => mapSet clients clientId ⟨-1, none, true⟩

/-! ## Router client tracking (HlsVod.getBackend, src/HlsVod.ts lines 81-102) -/

/-- The pair of fields of a resolved backend that getBackend compares
(backend.relPath and backend.config.preset.name). -/
structure BackendKey where
  relPath : String
  qualityName : String
deriving DecidableEq

/-- A removeClient call issued by the router, with the backend that
receives it and the client id argument it carries. -/
structure RemoveClientCall where
  backend : BackendKey
  clientId : String
deriving DecidableEq

/-- HlsVod.getBackend (lines 81-102), as a state transformer on the
clientTracker map, also returning the removeClient calls it issues.
The source first reads and deletes the existing association. For a new
client it evicts the oldest entry only when the remaining map size
strictly exceeds maxClientNumber, and the eviction passes clientId -
the id of the requesting client - to removeClient of the victim backend.
For an existing client whose file or quality changed, the old backend
receives removeClient with the client id. Finally the new association is
appended. -/
def routerGetBackend (clientTracker : List (String × BackendKey))
    (maxClientNumber : ℕ) (clientId : String) (file qualityLevel : String) :
    List (String × BackendKey) × List RemoveClientCall :=
  let existing := List.lookup clientId clientTracker
  let afterDelete := mapDelete clientTracker clientId
  let newBackend : BackendKey := ⟨file, qualityLevel⟩
  match existing with
  | none =>
    if maxClientNumber < afterDelete.length then
      match afterDelete with
      | [] => (mapSet ([] : List (String × BackendKey)) clientId newBackend, [])
      | victim :: rest =>
        (mapSet rest clientId newBackend, [⟨victim.2, clientId⟩])
    else
      (mapSet afterDelete clientId newBackend, [])
  | some oldBackend =>
    (mapSet afterDelete clientId newBackend,
      if oldBackend.qualityName ≠ qualityLevel ∨ oldBackend.relPath ≠ file then
        [⟨oldBackend, clientId⟩]
      else [])

/-! ## LruCacheMapForAsync (src/Utils.ts lines 88-135), one key at a time

For a fixed key, the relevant state of the map is: the promise the cache
holds for the key (if any), the promise the destructions map holds for the
key (if any), and the promise graph these chains created. Every promise
relevant to the key is either a construction promise (produced inside get:
either a bare asyncConstructor call, prereq none, or
destruction.then(ctor, ctor), prereq the destruction promise it chains
after), or a destruction promise info.then(dtor) produced inside delete,
with source the cache promise it consumes. Operations on other keys touch
this key only through the eviction inside the private set method, which
calls the same delete; so the per-key behaviour is covered by the get and
delete transitions below, interleaved freely with the asynchronous
progress transitions of constructors and destructors. -/

namespace LruForAsync

/-- Settlement status of a promise. -/
inductive PStatus
  | pending
  | ok
  | err
deriving DecidableEq

/-- Progress of the user-supplied async constructor or destructor behind a
promise. finished covers successful and failed completion (the promise
status records which); skipped is the destruction case where the source
promise rejected, so asyncDestructor is never invoked (one-argument then
on line 110). -/
inductive TaskState
  | notStarted
  | running
  | finished
  | skipped
deriving DecidableEq

/-- What kind of promise this is, and what it chains after. -/
inductive PKind
  | construction (prereq : Option ℕ)
  | destruction (source : ℕ)
deriving DecidableEq

/-- One promise of the per-key promise graph. cleanupPending records that
the promise rejected and the info.catch handler attached on lines 124-128
has not run yet. -/
structure PRec where
  kind : PKind
  task : TaskState
  status : PStatus
  cleanupPending : Bool
deriving DecidableEq

/-- Per-key state of the map: all promises ever created for the key (index
in this list is the promise id), the cache entry and the destructions
entry. -/
structure LruState where
  proms : List PRec
  cache : Option ℕ
  destr : Option ℕ
deriving DecidableEq

/-- Initially the key is in neither map. -/
def initState : LruState := ⟨[], none, none⟩

/-- Replace the record of promise i. -/
def setProm (s : LruState) (i : ℕ) (r : PRec) : LruState :=
  ⟨s.proms.set i r, s.cache, s.destr⟩

/-- A chained constructor may start once its prerequisite destruction
promise has settled, either way (destruction.then(ctor, ctor), line 122);
an unchained constructor (ctor(), line 122) may start right away. -/
def prereqSettled (s : LruState) : Option ℕ → Prop
  | none => True
  | some d => ∃ rd, s.proms[d]? = some rd ∧ rd.status ≠ .pending

/-- The transitions of the per-key LRU state. The get and delete
transitions are the synchronous parts of Utils.ts get (lines 117-134) and
delete (lines 105-115); the rest are the asynchronous completions the
event loop may run at any later moment. -/
inductive Step : LruState → LruState → Prop
  /-- get with the key in the cache (lines 129-133): the entry is re-added
  at the tail; per key nothing changes. -/
  | getHit (s : LruState) (c : ℕ) :
      s.cache = some c → Step s s
  /-- get with a cache miss (lines 119-128): a new construction promise is
  created, chained after the destructions entry if one is present, and
  stored in the cache. The destructions entry is read but never removed. -/
  | getMiss (s : LruState) :
      s.cache = none →
      Step s ⟨s.proms ++ [⟨.construction s.destr, .notStarted, .pending, false⟩],
              some s.proms.length, s.destr⟩
  /-- delete with the key in the cache (lines 106-114): the cache entry
  becomes the source of a new destruction promise, the key leaves the
  cache, and the destructions entry is set (overwriting any previous one;
  the source never removes destructions entries). -/
  | deleteHit (s : LruState) (c : ℕ) :
      s.cache = some c →
      Step s ⟨s.proms ++ [⟨.destruction c, .notStarted, .pending, false⟩],
              none, some s.proms.length⟩
  /-- delete with the key not in the cache (lines 107-109): returns the
  pending destruction, if any; no state change. -/
  | deleteMiss (s : LruState) :
      s.cache = none → Step s s
  /-- The asyncConstructor behind construction promise i begins to run;
  possible once the prerequisite destruction (if any) has settled. -/
  | ctorStart (s : LruState) (i : ℕ) (r : PRec) (pre : Option ℕ) :
      s.proms[i]? = some r → r.kind = .construction pre → r.task = .notStarted →
      prereqSettled s pre →
      Step s (setProm s i ⟨r.kind, .running, r.status, r.cleanupPending⟩)
  /-- The asyncConstructor behind promise i completes successfully; the
  promise fulfills. -/
  | ctorFinishOk (s : LruState) (i : ℕ) (r : PRec) (pre : Option ℕ) :
      s.proms[i]? = some r → r.kind = .construction pre → r.task = .running →
      Step s (setProm s i ⟨r.kind, .finished, .ok, r.cleanupPending⟩)
  /-- The asyncConstructor behind promise i throws; the promise rejects
  and the catch handler of lines 124-128 becomes pending. -/
  | ctorFinishErr (s : LruState) (i : ℕ) (r : PRec) (pre : Option ℕ) :
      s.proms[i]? = some r → r.kind = .construction pre → r.task = .running →
      Step s (setProm s i ⟨r.kind, .finished, .err, true⟩)
  /-- The catch handler of construction promise i runs (lines 124-128): it
  removes the cache entry only if the cache still holds this very
  promise. -/
  | cleanupRun (s : LruState) (i : ℕ) (r : PRec) :
      s.proms[i]? = some r → r.cleanupPending = true →
      Step s ⟨s.proms.set i ⟨r.kind, r.task, r.status, false⟩,
              if s.cache = some i then none else s.cache, s.destr⟩
  /-- The asyncDestructor behind destruction promise i begins to run; this
  is the one-argument then of line 110, so it requires the source promise
  to have fulfilled. -/
  | dtorStart (s : LruState) (i : ℕ) (r : PRec) (src : ℕ) (rsrc : PRec) :
      s.proms[i]? = some r → r.kind = .destruction src → r.task = .notStarted →
      s.proms[src]? = some rsrc → rsrc.status = .ok →
      Step s (setProm s i ⟨r.kind, .running, r.status, r.cleanupPending⟩)
  /-- The source of destruction promise i rejected: asyncDestructor never
  runs and the destruction promise rejects with the same reason. -/
  | dtorSkip (s : LruState) (i : ℕ) (r : PRec) (src : ℕ) (rsrc : PRec) :
      s.proms[i]? = some r → r.kind = .destruction src → r.task = .notStarted →
      s.proms[src]? = some rsrc → rsrc.status = .err →
      Step s (setProm s i ⟨r.kind, .skipped, .err, r.cleanupPending⟩)
  /-- The asyncDestructor behind promise i completes successfully. -/
  | dtorFinishOk (s : LruState) (i : ℕ) (r : PRec) (src : ℕ) :
      s.proms[i]? = some r → r.kind = .destruction src → r.task = .running →
      Step s (setProm s i ⟨r.kind, .finished, .ok, r.cleanupPending⟩)
  /-- The asyncDestructor behind promise i throws. -/
  | dtorFinishErr (s : LruState) (i : ℕ) (r : PRec) (src : ℕ) :
      s.proms[i]? = some r → r.kind = .destruction src → r.task = .running →
      Step s (setProm s i ⟨r.kind, .finished, .err, r.cleanupPending⟩)

/-- States reachable from the empty per-key state by any interleaving of
get and delete calls and asynchronous completions. -/
inductive Reachable : LruState → Prop
  | init : Reachable initState
  | step {s t : LruState} : Reachable s → Step s t → Reachable t

/-- The promise a promise chains after: the prerequisite destruction of a
chained construction, or the source of a destruction. -/
def parentOfRec (r : PRec) : Option ℕ :=
  match r.kind with
  | .construction pre => pre
  | .destruction src => some src

/-- Parent promise id of promise a in state s. -/
def parentOf (s : LruState) (a : ℕ) : Option ℕ :=
  match s.proms[a]? with
  | some r => parentOfRec r
  | none => none

/-- One chaining step: b is the parent of a. -/
def parentRel (s : LruState) (a b : ℕ) : Prop := parentOf s a = some b

/-- The most recent promise of the key: the cache entry when there is one,
else the destructions entry. -/
def topOf (s : LruState) : Option ℕ :=
  match s.cache with
  | some c => some c
  | none => s.destr

/-- Promise i lies on the chain of ancestors of the most recent promise. -/
def InChain (s : LruState) (i : ℕ) : Prop :=
  ∃ t, topOf s = some t ∧ Relation.ReflTransGen (parentRel s) t i

/-- The task behind the promise has not completed: a constructor or
destructor that has not yet run or is currently running. -/
def unfinishedTask (r : PRec) : Prop :=
  r.task = .notStarted ∨ r.task = .running

/-- The inductive invariant of the per-key state. -/
structure Inv (s : LruState) : Prop where
  /-- The cache always holds a construction promise chained after the
  current destructions entry: get stores exactly such a promise, and the
  destructions entry cannot change while the key stays in the cache. -/
  cache_parent : ∀ (c : ℕ), s.cache = some c →
    ∃ r, s.proms[c]? = some r ∧ r.kind = .construction s.destr
  /-- A promise is pending exactly while its task has not completed. -/
  status_task : ∀ (i : ℕ) (r : PRec), s.proms[i]? = some r →
    (r.status = .pending ↔ unfinishedTask r)
  /-- Once a task has started, the parent promise has settled. -/
  started_parent : ∀ (i : ℕ) (r : PRec), s.proms[i]? = some r → r.task ≠ .notStarted →
    ∀ p, parentOfRec r = some p →
      ∃ rp, s.proms[p]? = some rp ∧ rp.status ≠ .pending
  /-- A pending catch handler belongs to a promise whose task finished. -/
  cleanup_finished : ∀ (i : ℕ) (r : PRec), s.proms[i]? = some r →
    r.cleanupPending = true → r.task = .finished
  /-- Every promise whose task has not completed lies on the ancestor
  chain of the most recent promise. -/
  unfinished_chain : ∀ (i : ℕ) (r : PRec), s.proms[i]? = some r → unfinishedTask r →
    InChain s i

end LruForAsync

/-! ## Lemmas about decimal digit strings -/

theorem decDigitsAux_congr (n : ℕ) :
    ∀ f g : ℕ, n < f → n < g → decDigitsAux f n = decDigitsAux g n := by
  induction n using Nat.strong_induction_on with
  | _ n ih =>
    intro f g hf hg
    cases f with
    | zero => omega
    | succ f =>
      cases g with
      | zero => omega
      | succ g =>
        by_cases h10 : n < 10
        · simp [decDigitsAux, h10]
        · have hdiv : n / 10 < n := Nat.div_lt_self (by omega) (by omega)
          simp only [decDigitsAux, if_neg h10]
          rw [ih (n / 10) hdiv f g (by omega) (by omega)]

theorem decDigits_of_lt {n : ℕ} (h : n < 10) : decDigits n = [Nat.digitChar n] := by
  simp [decDigits, decDigitsAux, h]

theorem decDigits_of_ge {n : ℕ} (h : 10 ≤ n) :
    decDigits n = decDigits (n / 10) ++ [Nat.digitChar (n % 10)] := by
  have h1 : decDigits n = decDigitsAux n (n / 10) ++ [Nat.digitChar (n % 10)] := by
    simp [decDigits, decDigitsAux, Nat.not_lt.mpr h]
  rw [h1, decDigitsAux_congr (n / 10) n (n / 10 + 1)
    (Nat.div_lt_self (by omega) (by omega)) (Nat.lt_succ_self _)]
  rfl

theorem padDigits_length : ∀ k n : ℕ, (padDigits k n).length = k := by
  intro k
  induction k with
  | zero => intro n; rfl
  | succ k ih => intro n; simp [padDigits, ih]

theorem padDigits_mod : ∀ k n : ℕ, padDigits k n = padDigits k (n % 10 ^ k) := by
  intro k
  induction k with
  | zero => intro n; rfl
  | succ k ih =>
    intro n
    have hdvd : (10 : ℕ) ∣ 10 ^ (k + 1) := dvd_pow_self 10 (Nat.succ_ne_zero k)
    have hmod : n % 10 ^ (k + 1) % 10 = n % 10 := Nat.mod_mod_of_dvd n hdvd
    have hdivmod : n % 10 ^ (k + 1) / 10 = n / 10 % 10 ^ k := by
      have := Nat.mod_mul_right_div_self n 10 (10 ^ k)
      rwa [← pow_succ' 10 k] at this
    simp only [padDigits, hmod, hdivmod]
    rw [← ih (n / 10)]

theorem padDigits_msd : ∀ k n : ℕ,
    padDigits (k + 1) n = Nat.digitChar (n / 10 ^ k % 10) :: padDigits k n := by
  intro k
  induction k with
  | zero => intro n; simp [padDigits]
  | succ k ih =>
    intro n
    have hdd : n / 10 / 10 ^ k = n / 10 ^ (k + 1) := by
      rw [Nat.div_div_eq_div_mul, ← pow_succ' 10 k]
    calc padDigits (k + 2) n
        = padDigits (k + 1) (n / 10) ++ [Nat.digitChar (n % 10)] := rfl
      _ = (Nat.digitChar (n / 10 / 10 ^ k % 10) :: padDigits k (n / 10))
            ++ [Nat.digitChar (n % 10)] := by rw [ih]
      _ = Nat.digitChar (n / 10 ^ (k + 1) % 10) :: padDigits (k + 1) n := by
            rw [hdd]; rfl

theorem decDigits_eq_padDigits : ∀ k n : ℕ, 10 ^ k ≤ n → n < 10 ^ (k + 1) →
    decDigits n = padDigits (k + 1) n := by
  intro k
  induction k with
  | zero =>
    intro n h1 h2
    norm_num at h1 h2
    rw [decDigits_of_lt h2]
    simp [padDigits, Nat.mod_eq_of_lt h2]
  | succ k ih =>
    intro n h1 h2
    have hp : (10 : ℕ) ≤ 10 ^ (k + 1) := by
      calc (10 : ℕ) = 10 ^ 1 := (pow_one 10).symm
        _ ≤ 10 ^ (k + 1) := Nat.pow_le_pow_right (by omega) (by omega)
    have h10 : 10 ≤ n := le_trans hp h1
    have hlow : 10 ^ k ≤ n / 10 := by
      rw [Nat.le_div_iff_mul_le (by omega), ← pow_succ]
      exact h1
    have hhigh : n / 10 < 10 ^ (k + 1) := by
      rw [Nat.div_lt_iff_lt_mul (by omega), ← pow_succ]
      exact h2
    rw [decDigits_of_ge h10, ih (n / 10) hlow hhigh]
    rfl

theorem decDigits_length_le : ∀ k n : ℕ, n < 10 ^ (k + 1) →
    (decDigits n).length ≤ k + 1 := by
  intro k
  induction k with
  | zero =>
    intro n h
    rw [decDigits_of_lt (by simpa using h)]
    simp
  | succ k ih =>
    intro n h
    by_cases h10 : n < 10
    · rw [decDigits_of_lt h10]; simp
    · have hdiv : n / 10 < 10 ^ (k + 1) := by
        rw [Nat.div_lt_iff_lt_mul (by omega), ← pow_succ]
        exact h
      rw [decDigits_of_ge (Nat.not_lt.mp h10)]
      have := ih (n / 10) hdiv
      simp only [List.length_append, List.length_cons, List.length_nil]
      omega

theorem decDigits_length_ge : ∀ k n : ℕ, 10 ^ k ≤ n →
    k + 1 ≤ (decDigits n).length := by
  intro k
  induction k with
  | zero =>
    intro n _
    by_cases h10 : n < 10
    · rw [decDigits_of_lt h10]; simp
    · rw [decDigits_of_ge (Nat.not_lt.mp h10)]
      simp
  | succ k ih =>
    intro n h
    have hp : (10 : ℕ) ≤ 10 ^ (k + 1) := by
      calc (10 : ℕ) = 10 ^ 1 := (pow_one 10).symm
        _ ≤ 10 ^ (k + 1) := Nat.pow_le_pow_right (by omega) (by omega)
    have h10 : 10 ≤ n := le_trans hp h
    have hlow : 10 ^ k ≤ n / 10 := by
      rw [Nat.le_div_iff_mul_le (by omega), ← pow_succ]
      exact h
    rw [decDigits_of_ge h10]
    have := ih (n / 10) hlow
    simp only [List.length_append, List.length_cons, List.length_nil]
    omega

theorem zeroPad_eq_padDigits : ∀ k n : ℕ, n < 10 ^ (k + 1) →
    List.replicate (k + 1 - (decDigits n).length) '0' ++ decDigits n
      = padDigits (k + 1) n := by
  intro k
  induction k with
  | zero =>
    intro n h
    norm_num at h
    rw [decDigits_of_lt h]
    simp [padDigits, Nat.mod_eq_of_lt h]
  | succ k ih =>
    intro n h
    by_cases hk : n < 10 ^ (k + 1)
    · have hmsd : padDigits (k + 2) n = '0' :: padDigits (k + 1) n := by
        rw [padDigits_msd (k + 1) n, Nat.div_eq_of_lt hk]
        rfl
      have hlen : (decDigits n).length ≤ k + 1 := decDigits_length_le k n hk
      have hsub : k + 2 - (decDigits n).length
          = (k + 1 - (decDigits n).length) + 1 := by omega
      rw [hmsd, hsub, List.replicate_succ, List.cons_append, ih n hk]
    · have hge : 10 ^ (k + 1) ≤ n := Nat.not_lt.mp hk
      have heq : decDigits n = padDigits (k + 2) n :=
        decDigits_eq_padDigits (k + 1) n hge h
      have hlen : (decDigits n).length = k + 2 := by
        rw [heq, padDigits_length]
      rw [hlen]
      simp [heq]

/-! ## C10: segment file names -/

/-- C10: for every segment index i below 100000 the file name computed by
getSegment equals the preset name, a dash, the five digit zero padded
decimal of i and the .ts extension, which is exactly the name ffmpeg
produces under its %05d output pattern; for every valid index from 100000
upwards the computed expression ((i + 1e5) % 1e6).toString().substr(1)
drops the leading digit and no longer names the file ffmpeg produced. -/
theorem getSegmentFileName_spec (presetName : String) (i : ℕ) :
    (i < 100000 → getSegmentFileName presetName i = ffmpegSegmentFileName presetName i) ∧
    (100000 ≤ i → getSegmentFileName presetName i ≠ ffmpegSegmentFileName presetName i) := by
  constructor
  · intro h
    have hm : (i + 100000) % 1000000 = i + 100000 := Nat.mod_eq_of_lt (by omega)
    have hpad : decDigits (i + 100000) = padDigits 6 (i + 100000) :=
      decDigits_eq_padDigits 5 (i + 100000) (by norm_num) (by norm_num; omega)
    have hdiv : (i + 100000) / 10 ^ 5 = 1 := by
      have h5 : (10 : ℕ) ^ 5 = 100000 := by norm_num
      rw [h5]
      omega
    have hmsd : padDigits 6 (i + 100000) = '1' :: padDigits 5 (i + 100000) := by
      rw [padDigits_msd 5 (i + 100000), hdiv]
      rfl
    have hmod5 : padDigits 5 (i + 100000) = padDigits 5 i := by
      have harg : (i + 100000) % 10 ^ 5 = i % 10 ^ 5 := by
        have h5 : (10 : ℕ) ^ 5 = 100000 := by norm_num
        rw [h5]
        omega
      rw [padDigits_mod 5 (i + 100000), padDigits_mod 5 i, harg]
    have hdrop : (decDigits ((i + 100000) % 1000000)).drop 1 = padDigits 5 i := by
      rw [hm, hpad, hmsd, hmod5]
      rfl
    have hff : List.replicate (5 - (decDigits i).length) '0' ++ decDigits i
        = padDigits 5 i := by
      have := zeroPad_eq_padDigits 4 i (by norm_num; omega)
      simpa using this
    rw [getSegmentFileName, ffmpegSegmentFileName, hdrop, hff]
  · intro h heq
    have hlen1 : ((decDigits ((i + 100000) % 1000000)).drop 1).length ≤ 5 := by
      have hlt : (i + 100000) % 1000000 < 10 ^ 6 := by
        have := Nat.mod_lt (i + 100000) (y := 1000000) (by omega)
        norm_num
        omega
      have := decDigits_length_le 5 ((i + 100000) % 1000000) hlt
      simp only [List.length_drop]
      omega
    have hlen2 : 6 ≤ (decDigits i).length := by
      have : (10 : ℕ) ^ 5 ≤ i := by norm_num; omega
      exact decDigits_length_ge 5 i this
    have hstr := congrArg String.length heq
    rw [getSegmentFileName, ffmpegSegmentFileName] at hstr
    simp only [String.length_append] at hstr
    have hm1 : (String.mk ((decDigits ((i + 100000) % 1000000)).drop 1)).length
        = ((decDigits ((i + 100000) % 1000000)).drop 1).length := rfl
    have hm2 : (String.mk (List.replicate (5 - (decDigits i).length) '0'
        ++ decDigits i)).length
        = (5 - (decDigits i).length) + (decDigits i).length := by
      simp [String.length, List.length_append]
    rw [hm1, hm2] at hstr
    omega

/-- Witness for C10 at the concrete preset 720p: index 7 matches the
ffmpeg name, index 100000 does not. -/
theorem getSegmentFileName_spec_witness :
    getSegmentFileName "720p" 7 = ffmpegSegmentFileName "720p" 7 ∧
    getSegmentFileName "720p" 100000 ≠ ffmpegSegmentFileName "720p" 100000 :=
  ⟨(getSegmentFileName_spec "720p" 7).1 (by decide),
   (getSegmentFileName_spec "720p" 100000).2 (by decide)⟩

/-! ## Lemmas about the startTranscode scan -/

theorem firstNonEmptyOffset_eq_none (l : List ℕ) :
    firstNonEmptyOffset l = none ↔ ∀ (j b : ℕ), l[j]? = some b → b = EMPTY := by
  induction l with
  | nil => simp [firstNonEmptyOffset]
  | cons b rest ih =>
    by_cases hb : b = EMPTY
    · subst hb
      have hstep : firstNonEmptyOffset (EMPTY :: rest)
          = (firstNonEmptyOffset rest).map (· + 1) := by
        rw [firstNonEmptyOffset]; simp
      rw [hstep]
      cases hcase : firstNonEmptyOffset rest with
      | none =>
        have hall := ih.mp hcase
        simp only [Option.map_none']
        constructor
        · intro _ j c hj
          cases j with
          | zero =>
            simp only [List.getElem?_cons_zero, Option.some.injEq] at hj
            exact hj.symm
          | succ j => exact hall j c (by simpa using hj)
        · intro _; trivial
      | some v =>
        simp only [Option.map_some']
        constructor
        · intro h; cases h
        · intro hforall
          exfalso
          have hnone : firstNonEmptyOffset rest = none :=
            ih.mpr (fun j c hj => hforall (j + 1) c (by simpa using hj))
          rw [hcase] at hnone
          cases hnone
    · have hstep : firstNonEmptyOffset (b :: rest) = some 0 := by
        rw [firstNonEmptyOffset]; simp [hb]
      rw [hstep]
      constructor
      · intro h; cases h
      · intro hforall
        exact absurd (hforall 0 b (by simp)) hb

theorem firstNonEmptyOffset_eq_some (l : List ℕ) :
    ∀ j : ℕ, firstNonEmptyOffset l = some j ↔
      ((∃ b, l[j]? = some b ∧ b ≠ EMPTY) ∧
        ∀ (j2 b2 : ℕ), j2 < j → l[j2]? = some b2 → b2 = EMPTY) := by
  induction l with
  | nil => intro j; simp [firstNonEmptyOffset]
  | cons b rest ih =>
    intro j
    by_cases hb : b = EMPTY
    · subst hb
      have hstep : firstNonEmptyOffset (EMPTY :: rest)
          = (firstNonEmptyOffset rest).map (· + 1) := by
        rw [firstNonEmptyOffset]; simp
      rw [hstep]
      cases j with
      | zero =>
        constructor
        · intro h
          exfalso
          cases hcase : firstNonEmptyOffset rest with
          | none => rw [hcase] at h; cases h
          | some v => rw [hcase] at h; simp at h
        · rintro ⟨⟨c, hc, hne⟩, _⟩
          simp only [List.getElem?_cons_zero, Option.some.injEq] at hc
          exact absurd hc.symm hne
      | succ j =>
        have hmapiff : ((firstNonEmptyOffset rest).map (· + 1) = some (j + 1))
            ↔ firstNonEmptyOffset rest = some j := by
          cases hcase : firstNonEmptyOffset rest <;> simp [hcase]
        rw [hmapiff, ih j]
        constructor
        · rintro ⟨⟨c, hc, hne⟩, hmin⟩
          refine ⟨⟨c, by simpa using hc, hne⟩, ?_⟩
          intro j2 b2 hj2 hb2
          cases j2 with
          | zero =>
            simp only [List.getElem?_cons_zero, Option.some.injEq] at hb2
            exact hb2.symm
          | succ j2 => exact hmin j2 b2 (by omega) (by simpa using hb2)
        · rintro ⟨⟨c, hc, hne⟩, hmin⟩
          refine ⟨⟨c, by simpa using hc, hne⟩, ?_⟩
          intro j2 b2 hj2 hb2
          exact hmin (j2 + 1) b2 (by omega) (by simpa using hb2)
    · have hstep : firstNonEmptyOffset (b :: rest) = some 0 := by
        rw [firstNonEmptyOffset]; simp [hb]
      rw [hstep]
      cases j with
      | zero =>
        constructor
        · intro _
          exact ⟨⟨b, by simp, hb⟩, fun j2 b2 hj2 _ => absurd hj2 (by omega)⟩
        · intro _; rfl
      | succ j =>
        constructor
        · intro h; simp at h
        · rintro ⟨_, hmin⟩
          exact absurd (hmin 0 b (by omega) (by simp)) hb

/-! ## C5: the end index chosen by startTranscode -/

/-- C5 amended: under the startTranscode preconditions, the end index is
the first index above startAt whose status byte is not EMPTY when such an
index exists below the segment count - even when that index exceeds
min(N, startAt + 512), because the scan loop runs to the end of the
status array and overwrites the initial clamp - and min(N, startAt + 512)
otherwise; it never exceeds the segment count. -/
theorem startTranscodeEndAt_spec (segmentStatus : List ℕ) (startAt : ℕ)
    (hstart : startAt < segmentStatus.length)
    (hempty : segmentStatus[startAt]? = some EMPTY) :
    startTranscodeEndAt segmentStatus startAt ≤ segmentStatus.length ∧
    ((∀ (i b : ℕ), startAt < i → segmentStatus[i]? = some b → b = EMPTY) →
      startTranscodeEndAt segmentStatus startAt
        = min segmentStatus.length (startAt + 512)) ∧
    (∀ (i b : ℕ), startAt < i → segmentStatus[i]? = some b → b ≠ EMPTY →
      ∃ j, startAt < j ∧ j ≤ i ∧ startTranscodeEndAt segmentStatus startAt = j ∧
        (∃ bj, segmentStatus[j]? = some bj ∧ bj ≠ EMPTY) ∧
        ∀ (j2 b2 : ℕ), startAt < j2 → j2 < j → segmentStatus[j2]? = some b2 →
          b2 = EMPTY) := by
  have hdropIdx : ∀ k : ℕ, (segmentStatus.drop (startAt + 1))[k]?
      = segmentStatus[startAt + 1 + k]? := by
    intro k
    rw [List.getElem?_drop]
  cases hscan : firstNonEmptyOffset (segmentStatus.drop (startAt + 1)) with
  | none =>
    have hall := (firstNonEmptyOffset_eq_none _).mp hscan
    have hval : startTranscodeEndAt segmentStatus startAt
        = min segmentStatus.length (startAt + 512) := by
      rw [startTranscodeEndAt, hscan]
    refine ⟨by rw [hval]; omega, fun _ => hval, ?_⟩
    intro i b hi hb hne
    have : b = EMPTY := by
      have hk := hdropIdx (i - (startAt + 1))
      rw [show startAt + 1 + (i - (startAt + 1)) = i from by omega] at hk
      exact hall (i - (startAt + 1)) b (hk.trans hb)
    exact absurd this hne
  | some j =>
    obtain ⟨⟨c, hc, hcne⟩, hmin⟩ := (firstNonEmptyOffset_eq_some _ j).mp hscan
    have hval : startTranscodeEndAt segmentStatus startAt = startAt + 1 + j := by
      rw [startTranscodeEndAt, hscan]
    have hjlen : j < segmentStatus.length - (startAt + 1) := by
      have := List.getElem?_eq_some_iff.mp (hdropIdx j ▸ hc)
      have hlt : j < (segmentStatus.drop (startAt + 1)).length :=
        (List.getElem?_eq_some_iff.mp hc).1
      simpa using hlt
    refine ⟨by omega, ?_, ?_⟩
    · intro hall
      have hcmem : segmentStatus[startAt + 1 + j]? = some c := by
        rw [← hdropIdx j]; exact hc
      exact absurd (hall (startAt + 1 + j) c (by omega) hcmem) hcne
    · intro i b hi hb hne
      refine ⟨startAt + 1 + j, by omega, ?_, hval, ?_, ?_⟩
      · by_contra hgt
        have hilt : i - (startAt + 1) < j := by omega
        have hk := hdropIdx (i - (startAt + 1))
        rw [show startAt + 1 + (i - (startAt + 1)) = i from by omega] at hk
        exact hne (hmin (i - (startAt + 1)) b hilt (hk.trans hb))
      · exact ⟨c, by rw [← hdropIdx j]; exact hc, hcne⟩
      · intro j2 b2 hj2lo hj2hi hb2
        have hk := hdropIdx (j2 - (startAt + 1))
        rw [show startAt + 1 + (j2 - (startAt + 1)) = j2 from by omega] at hk
        exact hmin (j2 - (startAt + 1)) b2 (by omega) (hk.trans hb2)

set_option maxRecDepth 4000 in
/-- C5 counterexample (closed): with 514 segments, segment 0 EMPTY and
only segment 513 non-EMPTY, the chosen end index is 513, strictly above
min(N, startAt + 512) = 512. -/
theorem startTranscodeEndAt_exceeds_clamp :
    startTranscodeEndAt (List.replicate 513 0 ++ [255]) 0 = 513 ∧
    min (List.replicate 513 (0 : ℕ) ++ [255]).length (0 + 512) = 512 ∧
    (513 : ℕ) > 512 := by
  refine ⟨?_, ?_, by omega⟩
  · decide
  · simp only [List.length_append, List.length_replicate, List.length_cons,
      List.length_nil]
    omega

/-- Witness for C5 at a concrete input: status [0, 255, 0], start 0. -/
theorem startTranscodeEndAt_spec_witness :
    startTranscodeEndAt [0, 255, 0] 0 ≤ ([0, 255, 0] : List ℕ).length ∧
    startTranscodeEndAt [0, 0, 0] 0 = min ([0, 0, 0] : List ℕ).length (0 + 512) :=
  ⟨(startTranscodeEndAt_spec [0, 255, 0] 0 (by decide) (by decide)).1,
   (startTranscodeEndAt_spec [0, 0, 0] 0 (by decide) (by decide)).2.1 (by
     intro i b hi hb
     have hlen : i < 3 := (List.getElem?_eq_some_iff.mp hb).1
     rcases i with _ | _ | _ | i
     · omega
     · simp only [List.getElem?_cons_succ, List.getElem?_cons_zero,
         Option.some.injEq] at hb
       exact hb.symm
     · simp only [List.getElem?_cons_succ, List.getElem?_cons_zero,
         Option.some.injEq] at hb
       exact hb.symm
     · omega)⟩

/-! ## Association list helper lemmas -/

theorem mapSet_of_lookup_none {α : Type} (m : List (String × α)) (k : String)
    (v : α) (h : List.lookup k m = none) : mapSet m k v = m ++ [(k, v)] := by
  simp [mapSet, h]

theorem lookup_append_right {α : Type} (m : List (String × α)) (k : String)
    (v : α) (h : List.lookup k m = none) :
    List.lookup k (m ++ [(k, v)]) = some v := by
  induction m with
  | nil => simp [List.lookup]
  | cons e m ih =>
    obtain ⟨a, w⟩ := e
    by_cases hk : k == a
    · rw [List.lookup] at h
      simp only [hk, if_pos] at h
      cases h
    · have hkf : (k == a) = false := by
        cases hcc : (k == a)
        · rfl
        · exact absurd hcc hk
      rw [List.lookup] at h
      rw [List.cons_append, List.lookup]
      simp only [hkf, Bool.false_eq_true, if_false] at h ⊢
      exact ih h

theorem lookup_eq_none_of_not_mem {α : Type} (m : List (String × α))
    (k : String) (h : k ∉ m.map Prod.fst) : List.lookup k m = none := by
  induction m with
  | nil => rfl
  | cons e m ih =>
    obtain ⟨a, w⟩ := e
    simp only [List.map_cons, List.mem_cons, not_or] at h
    rw [List.lookup]
    rw [show (k == a) = false from beq_eq_false_iff_ne.mpr h.1]
    simp only [Bool.false_eq_true, if_false]
    exact ih h.2

/-! ## C7: the 409 logic of getSegment and the removeClient stub -/

/-- C7: getSegment answers 409 exactly when the client record exists with
deleted set; a missing record is created with head -1 and the request
proceeds; and a removeClient arriving before the first request of the
client inserts a pre-deleted stub (head -1, deleted), so the later
getSegment for that client observes deleted and answers 409. -/
theorem getSegmentConflictSpec (clients : List (String × ClientStatus))
    (clientId : String) :
    (getSegmentClientCheck clients clientId = .conflict 409 ↔
      ∃ st, List.lookup clientId clients = some st ∧ st.deleted = true) ∧
    (List.lookup clientId clients = none →
      getSegmentClientCheck clients clientId
        = .proceed (clients ++ [(clientId, ⟨-1, none, false⟩)])) ∧
    (List.lookup clientId clients = none →
      getSegmentClientCheck (removeClientMark clients clientId) clientId
        = .conflict 409) := by
  refine ⟨?_, ?_, ?_⟩
  · rw [getSegmentClientCheck]
    cases h : List.lookup clientId clients with
    | none => simp
    | some st =>
      by_cases hd : st.deleted <;> simp [hd]
  · intro h
    rw [getSegmentClientCheck, h, mapSet_of_lookup_none _ _ _ h]
  · intro h
    have h1 : removeClientMark clients clientId
        = clients ++ [(clientId, ⟨-1, none, true⟩)] := by
      rw [removeClientMark, h, mapSet_of_lookup_none _ _ _ h]
    rw [h1, getSegmentClientCheck, lookup_append_right _ _ _ h]
    rfl

/-- Witness for C7 at a concrete input: empty client map, client c. -/
theorem getSegmentConflictSpec_witness :
    getSegmentClientCheck [] "c" = .proceed [("c", ⟨-1, none, false⟩)] ∧
    getSegmentClientCheck (removeClientMark [] "c") "c" = .conflict 409 :=
  ⟨(getSegmentConflictSpec [] "c").2.1 rfl,
   (getSegmentConflictSpec [] "c").2.2 rfl⟩

/-! ## C6: unknown quality names -/

/-- C6 amended: for a video descriptor, an unknown quality name makes
getBackendByQualityLevel fail with the assertion error (surfaced as 500);
for an audio descriptor, getBackendByQualityLevel has no assertion and
returns the undefined value (modelled none) instead of failing. -/
theorem getBackendByQualityLevel_spec {B : Type}
    (qualityLevels : List (String × QualityLevel)) (level : String) (b : B) :
    (level ∉ qualityLevels.map Prod.fst →
      videoGetBackendByQualityLevel qualityLevels level
        = Except.error "Quality level not exists.") ∧
    (level ≠ audioPresetName → audioGetBackendByQualityLevel b level = none) := by
  constructor
  · intro h
    rw [videoGetBackendByQualityLevel, lookup_eq_none_of_not_mem _ _ h]
  · intro h
    have hbeq : (audioPresetName == level) = false :=
      beq_eq_false_iff_ne.mpr (fun hh => h hh.symm)
    rw [audioGetBackendByQualityLevel, hbeq]
    simp

/-- C6 counterexample (closed): requesting quality 720p from an audio
descriptor returns the undefined value (none) through the non-null cast
instead of failing, while a video descriptor without that quality fails
with the assertion error. -/
theorem audioUnknownQualityReturnsValue :
    audioGetBackendByQualityLevel (0 : ℕ) "720p" = none ∧
    videoGetBackendByQualityLevel [] "720p"
      = Except.error "Quality level not exists." :=
  ⟨rfl, rfl⟩

/-- Witness for C6 at concrete inputs. -/
theorem getBackendByQualityLevel_spec_witness :
    videoGetBackendByQualityLevel [] "480p"
      = Except.error "Quality level not exists." ∧
    audioGetBackendByQualityLevel (0 : ℕ) "480p" = none :=
  ⟨(getBackendByQualityLevel_spec [] "480p" (0 : ℕ)).1 (by simp),
   (getBackendByQualityLevel_spec [] "480p" (0 : ℕ)).2 (by decide)⟩

/-! ## C2: router eviction -/

/-- C2: with maxClientNumber = 1, registering client-a and then a second
client client-b does not evict client-a and issues no removeClient call
(the eviction only fires once the map size strictly exceeds
maxClientNumber); when a third client client-c arrives, client-a is
evicted but the removeClient call delivered to the evicted backend
carries the id of the requesting client client-c, not the evicted
client-a. -/
theorem routerEvictionBehaviour :
    routerGetBackend [] 1 "client-a" "file" "q"
      = ([("client-a", ⟨"file", "q"⟩)], []) ∧
    routerGetBackend [("client-a", ⟨"file", "q"⟩)] 1 "client-b" "file" "q"
      = ([("client-a", ⟨"file", "q"⟩), ("client-b", ⟨"file", "q"⟩)], []) ∧
    routerGetBackend [("client-a", ⟨"file", "q"⟩), ("client-b", ⟨"file", "q"⟩)]
        1 "client-c" "file" "q"
      = ([("client-b", ⟨"file", "q"⟩), ("client-c", ⟨"file", "q"⟩)],
         [⟨⟨"file", "q"⟩, "client-c"⟩]) ∧
    "client-c" ≠ "client-a" := by
  refine ⟨?_, ?_, ?_, by decide⟩ <;> rfl

/-! ## C4: master manifest stream lines -/

/-- C4 amended: for a video media descriptor, getMasterManifest emits per
applicable preset an EXT-X-STREAM-INF line whose BANDWIDTH attribute is
ceil((videoBitrate + audioBitrate) * 1.05) - the source applies no factor
of 1000, so the value stays in the kbps scale of the preset table -
followed by the relative URL quality-(preset).m3u8. -/
theorem masterManifest_streamInf_lines (qualityLevels : List (String × QualityLevel)) :
    ∀ (i : ℕ) (entry : String × QualityLevel), qualityLevels[i]? = some entry →
      (masterManifestLines qualityLevels)[2 * i + 1]?
        = some ("#EXT-X-STREAM-INF:BANDWIDTH="
            ++ toString (⌈((entry.2.preset.videoBitrate : ℚ)
                + (entry.2.preset.audioBitrate : ℚ)) * (21 / 20)⌉)
            ++ ",RESOLUTION=" ++ toString entry.2.width ++ "x"
            ++ toString entry.2.height ++ ",NAME=" ++ entry.1) ∧
      (masterManifestLines qualityLevels)[2 * i + 2]?
        = some ("quality-" ++ entry.1 ++ ".m3u8") := by
  have hcast : ∀ entry : String × QualityLevel,
      ((entry.2.preset.videoBitrate + entry.2.preset.audioBitrate : ℕ) : ℚ) * 1.05
        = ((entry.2.preset.videoBitrate : ℚ) + (entry.2.preset.audioBitrate : ℚ))
            * (21 / 20) := by
    intro entry
    push_cast
    norm_num
  induction qualityLevels with
  | nil => intro i entry h; simp at h
  | cons e ls ih =>
    intro i entry h
    cases i with
    | zero =>
      simp only [List.getElem?_cons_zero, Option.some.injEq] at h
      subst h
      constructor
      · rw [show 2 * 0 + 1 = 1 from rfl]
        simp only [masterManifestLines, List.flatMap_cons, List.cons_append,
          List.nil_append, List.getElem?_cons_succ, List.getElem?_cons_zero,
          Option.some.injEq]
        rw [hcast e]
      · rw [show 2 * 0 + 2 = 2 from rfl]
        simp only [masterManifestLines, List.flatMap_cons, List.cons_append,
          List.nil_append, List.getElem?_cons_succ, List.getElem?_cons_zero]
    | succ i =>
      simp only [List.getElem?_cons_succ] at h
      have hshift : ∀ k : ℕ,
          (masterManifestLines (e :: ls))[k + 3]? = (masterManifestLines ls)[k + 1]? := by
        intro k
        simp only [masterManifestLines, List.flatMap_cons, List.cons_append,
          List.nil_append, List.getElem?_cons_succ]
      have h1 : 2 * (i + 1) + 1 = 2 * i + 3 := by ring
      have h2 : 2 * (i + 1) + 2 = 2 * i + 1 + 3 := by ring
      rw [h1, h2, hshift (2 * i), hshift (2 * i + 1)]
      have h3 : 2 * i + 1 + 1 = 2 * i + 2 := by ring
      rw [h3]
      exact ih i entry h

/-- C4 counterexample (closed): for the 1080p-extra preset at source
resolution 1920x1080, the emitted BANDWIDTH is 15456 =
ceil((14400 + 320) * 1.05), not ceil((14400 + 320) * 1.05 * 1000)
= 15456000 as the claim states. -/
theorem masterManifestBandwidthValue :
    masterManifestLines
        [("1080p-extra", ⟨⟨"1080p-extra", 1080, 14400, 320⟩, 1920, 1080⟩)]
      = ["#EXTM3U",
         "#EXT-X-STREAM-INF:BANDWIDTH=15456,RESOLUTION=1920x1080,NAME=1080p-extra",
         "quality-1080p-extra.m3u8"] ∧
    (⌈((14400 + 320 : ℕ) : ℚ) * 1.05 * 1000⌉ : ℤ) = 15456000 ∧
    ¬ (15456 : ℤ) = 15456000 := by
  refine ⟨?_, ?_, by decide⟩
  · have hceil : (⌈((14400 + 320 : ℕ) : ℚ) * 1.05⌉ : ℤ) = 15456 := by
      have harg : ((14400 + 320 : ℕ) : ℚ) * 1.05 = ((15456 : ℕ) : ℚ) := by norm_num
      rw [harg, Int.ceil_natCast]
      norm_num
    simp only [masterManifestLines, List.flatMap_cons, List.flatMap_nil,
      List.append_nil]
    rw [hceil]
    rfl
  · have harg : ((14400 + 320 : ℕ) : ℚ) * 1.05 * 1000 = ((15456000 : ℕ) : ℚ) := by
      norm_num
    rw [harg, Int.ceil_natCast]
    norm_num

/-- Witness for C4 at a concrete singleton quality list (the 360p preset
of the source table at source resolution 640x360). -/
theorem masterManifest_streamInf_lines_witness :
    (masterManifestLines [("360p", ⟨⟨"360p", 360, 1200, 112⟩, 640, 360⟩)])[2 * 0 + 1]?
      = some ("#EXT-X-STREAM-INF:BANDWIDTH="
          ++ toString (⌈(((1200 : ℕ) : ℚ) + ((112 : ℕ) : ℚ)) * (21 / 20)⌉)
          ++ ",RESOLUTION=" ++ toString (640 : ℕ) ++ "x" ++ toString (360 : ℕ)
          ++ ",NAME=" ++ "360p") ∧
    (masterManifestLines [("360p", ⟨⟨"360p", 360, 1200, 112⟩, 640, 360⟩)])[2 * 0 + 2]?
      = some ("quality-" ++ "360p" ++ ".m3u8") :=
  masterManifest_streamInf_lines
    [("360p", ⟨⟨"360p", 360, 1200, 112⟩, 640, 360⟩)] 0
    ("360p", ⟨⟨"360p", 360, 1200, 112⟩, 640, 360⟩) rfl

/-! ## C9: the planner on the basic test input -/

/-- C9: convertToSegments applied to the I-frame list [3, 6, 20] with
duration 31 and the default parameters (segmentLength 3.5, offset 1.25)
returns exactly [0, 3, 6, 9.5, 13, 16.5, 20, 22.75, 25.5, 28.25, 31].
Every intermediate value of this run is a dyadic rational that IEEE
doubles represent exactly, so the rational model coincides with the
float run of the source and of its test. -/
theorem convertToSegments_basic :
    convertToSegments [3, 6, 20] 31
      = [0, 3, 6, 19/2, 13, 33/2, 20, 91/4, 51/2, 113/4, 31] := by
  have hc2 : (⌈(22 : ℚ) / 7⌉ : ℤ) = 4 := by
    rw [Int.ceil_eq_iff]
    norm_num
  norm_num [convertToSegments, planLoop, pushEvenlySpaced, hc2, Int.ceil_ofNat,
    List.dropLast, List.getLast?]

/-! ## C1: the planner violates its tolerance bound on the test input of
the repository -/

/-- C1: on the input of the repository test suite with segmentLength 50
and segmentOffset 1 (iframes [5, 55], duration 555 - the test row
[5, 55, 555] under the pair (50, 1)), the planner emits the breakpoints
[0, 27.5, 55, 105, ..., 555]: the first two consecutive differences are
27.5, far below minSegmentLength = 49, neither of them the final
difference, contradicting the claimed bound (and the skip-branch
exception, which would allow only one undersized final gap). -/
theorem convertToSegments_toleranceViolation :
    convertToSegments [5, 55] 555 50 1
      = [0, 55/2, 55, 105, 155, 205, 255, 305, 355, 405, 455, 505, 555] ∧
    consecutiveGaps (convertToSegments [5, 55] 555 50 1)
      = [55/2, 55/2, 50, 50, 50, 50, 50, 50, 50, 50, 50, 50] ∧
    (55 : ℚ) / 2 < 50 - 1 := by
  have hc1 : (⌈(11 : ℚ) / 10⌉ : ℤ) = 2 := by
    rw [Int.ceil_eq_iff]
    norm_num
  have heval : convertToSegments [5, 55] 555 50 1
      = [0, 55/2, 55, 105, 155, 205, 255, 305, 355, 405, 455, 505, 555] := by
    norm_num [convertToSegments, planLoop, pushEvenlySpaced, hc1, Int.ceil_ofNat,
      List.dropLast, List.getLast?]
  refine ⟨heval, ?_, by norm_num⟩
  rw [heval]
  norm_num [consecutiveGaps]

/-! ## Lemmas for the LRU transition system -/

namespace LruForAsync

theorem lookup_lt {l : List PRec} {j : ℕ} {r : PRec} (h : l[j]? = some r) :
    j < l.length := (List.getElem?_eq_some_iff.mp h).1

theorem set_lookup_self {l : List PRec} {i : ℕ} {r : PRec} (r2 : PRec)
    (h : l[i]? = some r) : (l.set i r2)[i]? = some r2 :=
  List.getElem?_set_self (lookup_lt h)

theorem set_lookup_ne {l : List PRec} {i j : ℕ} (r2 : PRec) (h : j ≠ i) :
    (l.set i r2)[j]? = l[j]? :=
  List.getElem?_set_ne (Ne.symm h)

theorem set_lookup_cases {l : List PRec} {i : ℕ} {r : PRec} (r2 : PRec)
    (h : l[i]? = some r) (j : ℕ) :
    (j = i ∧ (l.set i r2)[j]? = some r2) ∨
    (j ≠ i ∧ (l.set i r2)[j]? = l[j]?) := by
  by_cases hj : j = i
  · subst hj
    exact Or.inl ⟨rfl, set_lookup_self r2 h⟩
  · exact Or.inr ⟨hj, set_lookup_ne r2 hj⟩

theorem append_lookup_lt {l : List PRec} (r : PRec) {j : ℕ} (h : j < l.length) :
    (l ++ [r])[j]? = l[j]? := by
  simp [List.getElem?_append, h]

theorem append_lookup_len {l : List PRec} (r : PRec) :
    (l ++ [r])[l.length]? = some r := by
  simp [List.getElem?_append]

theorem append_lookup_inv {l : List PRec} {r r2 : PRec} {j : ℕ}
    (h : (l ++ [r])[j]? = some r2) :
    (j < l.length ∧ l[j]? = some r2) ∨ (j = l.length ∧ r2 = r) := by
  by_cases hj : j < l.length
  · exact Or.inl ⟨hj, by rwa [append_lookup_lt r hj] at h⟩
  · right
    have hlen := lookup_lt h
    simp only [List.length_append, List.length_cons, List.length_nil] at hlen
    have hje : j = l.length := by omega
    subst hje
    rw [append_lookup_len] at h
    exact ⟨rfl, (Option.some.inj h).symm⟩

theorem parentOfRec_congr {r r2 : PRec} (hk : r2.kind = r.kind) :
    parentOfRec r2 = parentOfRec r := by
  unfold parentOfRec
  rw [hk]

theorem parentOf_set {s t : LruState} {i : ℕ} {r : PRec} (r2 : PRec)
    (h : s.proms[i]? = some r) (hk : r2.kind = r.kind)
    (hp : t.proms = s.proms.set i r2) (a : ℕ) :
    parentOf t a = parentOf s a := by
  rcases set_lookup_cases r2 h a with ⟨heq, hl⟩ | ⟨hne, hl⟩
  · subst heq
    rw [parentOf, parentOf, hp, hl, h]
    exact parentOfRec_congr hk
  · rw [parentOf, parentOf, hp, hl]

theorem rtg_of_parentOf_eq {s t : LruState}
    (hpe : ∀ a, parentOf t a = parentOf s a) {a b : ℕ}
    (h : Relation.ReflTransGen (parentRel s) a b) :
    Relation.ReflTransGen (parentRel t) a b :=
  Relation.ReflTransGen.mono
    (fun x y hxy => by rw [parentRel, hpe x]; exact hxy) h

theorem parentRel_mono_append {s : LruState} {nr : PRec}
    {cache2 destr2 : Option ℕ} {a b : ℕ} (h : parentRel s a b) :
    parentRel ⟨s.proms ++ [nr], cache2, destr2⟩ a b := by
  rw [parentRel, parentOf] at h ⊢
  cases hl : s.proms[a]? with
  | none => rw [hl] at h; cases h
  | some ra =>
    rw [hl] at h
    have hl2 : (s.proms ++ [nr])[a]? = some ra :=
      (append_lookup_lt nr (lookup_lt hl)).trans hl
    rw [show (⟨s.proms ++ [nr], cache2, destr2⟩ : LruState).proms
        = s.proms ++ [nr] from rfl, hl2]
    exact h

/-- Preservation of the invariant under any transition that only replaces
the task or status fields of one promise record (the kind is kept; the
cache and destructions entries stay). -/
theorem inv_setProm_task {s : LruState} (hi : Inv s) {i : ℕ} {r : PRec}
    (r2 : PRec) (h : s.proms[i]? = some r)
    (hk : r2.kind = r.kind)
    (hstat : r2.status = .pending ↔ unfinishedTask r2)
    (hmono : r.status ≠ .pending → r2.status ≠ .pending)
    (hstart2 : r2.task ≠ .notStarted →
      ∀ p, parentOfRec r2 = some p →
        ∃ rp, s.proms[p]? = some rp ∧ rp.status ≠ .pending)
    (hunf : unfinishedTask r2 → unfinishedTask r)
    (hfin : r2.cleanupPending = true → r2.task = .finished) :
    Inv (setProm s i r2) := by
  have hpe : ∀ a, parentOf (setProm s i r2) a = parentOf s a :=
    parentOf_set r2 h hk rfl
  refine ⟨?_, ?_, ?_, ?_, ?_⟩
  · intro c hcc
    obtain ⟨rc, hrc, hrk⟩ := hi.cache_parent c hcc
    rcases set_lookup_cases r2 h c with ⟨heq, hl⟩ | ⟨hne, hl⟩
    · subst heq
      have hre : rc = r := Option.some.inj (hrc.symm.trans h)
      refine ⟨r2, hl, ?_⟩
      rw [hk, ← hre]
      exact hrk
    · exact ⟨rc, hl.trans hrc, hrk⟩
  · intro j rj hj
    rcases set_lookup_cases r2 h j with ⟨heq, hl⟩ | ⟨hne, hl⟩
    · have hre : rj = r2 := Option.some.inj (hj.symm.trans hl)
      rw [hre]
      exact hstat
    · exact hi.status_task j rj (hj.symm.trans hl).symm
  · intro j rj hj hs p hp
    have htransfer : (∃ rp, s.proms[p]? = some rp ∧ rp.status ≠ .pending) →
        ∃ rp, (setProm s i r2).proms[p]? = some rp ∧ rp.status ≠ .pending := by
      rintro ⟨rp, hrp, hpend⟩
      rcases set_lookup_cases r2 h p with ⟨heq, hl⟩ | ⟨hne, hl⟩
      · subst heq
        have hre : rp = r := Option.some.inj (hrp.symm.trans h)
        exact ⟨r2, hl, hmono (hre ▸ hpend)⟩
      · exact ⟨rp, hl.trans hrp, hpend⟩
    rcases set_lookup_cases r2 h j with ⟨heq, hl⟩ | ⟨hne, hl⟩
    · have hre : rj = r2 := Option.some.inj (hj.symm.trans hl)
      subst hre
      exact htransfer (hstart2 hs p hp)
    · have hj2 : s.proms[j]? = some rj := (hj.symm.trans hl).symm
      exact htransfer (hi.started_parent j rj hj2 hs p hp)
  · intro j rj hj hcp
    rcases set_lookup_cases r2 h j with ⟨heq, hl⟩ | ⟨hne, hl⟩
    · have hre : rj = r2 := Option.some.inj (hj.symm.trans hl)
      subst hre
      exact hfin hcp
    · have hj2 : s.proms[j]? = some rj := (hj.symm.trans hl).symm
      exact hi.cleanup_finished j rj hj2 hcp
  · intro j rj hj hu
    have hchain : InChain s j → InChain (setProm s i r2) j := by
      rintro ⟨tp, htop, hrtg⟩
      exact ⟨tp, htop, rtg_of_parentOf_eq hpe hrtg⟩
    rcases set_lookup_cases r2 h j with ⟨heq, hl⟩ | ⟨hne, hl⟩
    · have hre : rj = r2 := Option.some.inj (hj.symm.trans hl)
      exact hchain (heq ▸ hi.unfinished_chain i r h (hunf (hre ▸ hu)))
    · have hj2 : s.proms[j]? = some rj := (hj.symm.trans hl).symm
      exact hchain (hi.unfinished_chain j rj hj2 hu)

/-- Preservation of the invariant under the cache-miss branch of get. -/
theorem inv_getMiss {s : LruState} (hi : Inv s) (hc : s.cache = none) :
    Inv ⟨s.proms ++ [⟨.construction s.destr, .notStarted, .pending, false⟩],
         some s.proms.length, s.destr⟩ := by
  refine ⟨?_, ?_, ?_, ?_, ?_⟩
  · intro c hcc
    have hcl : c = s.proms.length := (Option.some.inj hcc).symm
    subst hcl
    exact ⟨_, append_lookup_len _, rfl⟩
  · intro j rj hj
    rcases append_lookup_inv hj with ⟨hlt, hold⟩ | ⟨hje, hre⟩
    · exact hi.status_task j rj hold
    · rw [hre]
      exact ⟨fun _ => Or.inl rfl, fun _ => rfl⟩
  · intro j rj hj hs p hpp
    rcases append_lookup_inv hj with ⟨hlt, hold⟩ | ⟨hje, hre⟩
    · obtain ⟨rp, hrp, hpend⟩ := hi.started_parent j rj hold hs p hpp
      exact ⟨rp, (append_lookup_lt _ (lookup_lt hrp)).trans hrp, hpend⟩
    · rw [hre] at hs
      exact absurd rfl hs
  · intro j rj hj hcp
    rcases append_lookup_inv hj with ⟨hlt, hold⟩ | ⟨hje, hre⟩
    · exact hi.cleanup_finished j rj hold hcp
    · rw [hre] at hcp
      exact absurd hcp (by simp)
  · intro j rj hj hu
    rcases append_lookup_inv hj with ⟨hlt, hold⟩ | ⟨hje, hre⟩
    · obtain ⟨tp, htop, hrtg⟩ := hi.unfinished_chain j rj hold hu
      have hds : s.destr = some tp := by
        rw [topOf, hc] at htop
        exact htop
      refine ⟨s.proms.length, rfl, Relation.ReflTransGen.head ?_
        (Relation.ReflTransGen.mono (fun x y hxy => parentRel_mono_append hxy) hrtg)⟩
      rw [parentRel, parentOf]
      rw [show (⟨s.proms ++ [⟨.construction s.destr, .notStarted, .pending, false⟩],
          some s.proms.length, s.destr⟩ : LruState).proms
          = s.proms ++ [⟨.construction s.destr, .notStarted, .pending, false⟩] from rfl]
      rw [append_lookup_len]
      exact hds
    · rw [hje]
      exact ⟨s.proms.length, rfl, Relation.ReflTransGen.refl⟩

/-- Preservation of the invariant under the cache-hit branch of delete. -/
theorem inv_deleteHit {s : LruState} (hi : Inv s) {c : ℕ} (hc : s.cache = some c) :
    Inv ⟨s.proms ++ [⟨.destruction c, .notStarted, .pending, false⟩],
         none, some s.proms.length⟩ := by
  refine ⟨?_, ?_, ?_, ?_, ?_⟩
  · intro c' hcc
    cases hcc
  · intro j rj hj
    rcases append_lookup_inv hj with ⟨hlt, hold⟩ | ⟨hje, hre⟩
    · exact hi.status_task j rj hold
    · rw [hre]
      exact ⟨fun _ => Or.inl rfl, fun _ => rfl⟩
  · intro j rj hj hs p hpp
    rcases append_lookup_inv hj with ⟨hlt, hold⟩ | ⟨hje, hre⟩
    · obtain ⟨rp, hrp, hpend⟩ := hi.started_parent j rj hold hs p hpp
      exact ⟨rp, (append_lookup_lt _ (lookup_lt hrp)).trans hrp, hpend⟩
    · rw [hre] at hs
      exact absurd rfl hs
  · intro j rj hj hcp
    rcases append_lookup_inv hj with ⟨hlt, hold⟩ | ⟨hje, hre⟩
    · exact hi.cleanup_finished j rj hold hcp
    · rw [hre] at hcp
      exact absurd hcp (by simp)
  · intro j rj hj hu
    rcases append_lookup_inv hj with ⟨hlt, hold⟩ | ⟨hje, hre⟩
    · obtain ⟨tp, htop, hrtg⟩ := hi.unfinished_chain j rj hold hu
      have htpc : tp = c := by
        rw [topOf, hc] at htop
        exact (Option.some.inj htop).symm
      subst htpc
      refine ⟨s.proms.length, rfl, Relation.ReflTransGen.head ?_
        (Relation.ReflTransGen.mono (fun x y hxy => parentRel_mono_append hxy) hrtg)⟩
      rw [parentRel, parentOf]
      rw [show (⟨s.proms ++ [⟨.destruction tp, .notStarted, .pending, false⟩],
          none, some s.proms.length⟩ : LruState).proms
          = s.proms ++ [⟨.destruction tp, .notStarted, .pending, false⟩] from rfl]
      rw [append_lookup_len]
      rfl
    · rw [hje]
      exact ⟨s.proms.length, rfl, Relation.ReflTransGen.refl⟩

/-- Preservation of the invariant under the run of a rejection cleanup
handler. -/
theorem inv_cleanupRun {s : LruState} (hi : Inv s) {i : ℕ} {r : PRec}
    (h : s.proms[i]? = some r) (hcp : r.cleanupPending = true) :
    Inv ⟨s.proms.set i ⟨r.kind, r.task, r.status, false⟩,
         if s.cache = some i then none else s.cache, s.destr⟩ := by
  have hfin : r.task = .finished := hi.cleanup_finished i r h hcp
  have hpe : ∀ a,
      parentOf ⟨s.proms.set i ⟨r.kind, r.task, r.status, false⟩,
        if s.cache = some i then none else s.cache, s.destr⟩ a = parentOf s a :=
    parentOf_set ⟨r.kind, r.task, r.status, false⟩ h rfl rfl
  refine ⟨?_, ?_, ?_, ?_, ?_⟩
  · intro c hcc
    by_cases hsc : s.cache = some i
    · rw [if_pos hsc] at hcc
      cases hcc
    · rw [if_neg hsc] at hcc
      obtain ⟨rc, hrc, hrk⟩ := hi.cache_parent c hcc
      have hci : c ≠ i := fun hh => hsc (hh ▸ hcc)
      exact ⟨rc, (set_lookup_ne _ hci).trans hrc, hrk⟩
  · intro j rj hj
    rcases set_lookup_cases ⟨r.kind, r.task, r.status, false⟩ h j with
      ⟨heq, hl⟩ | ⟨hne, hl⟩
    · have hre : rj = ⟨r.kind, r.task, r.status, false⟩ :=
        Option.some.inj (hj.symm.trans hl)
      rw [hre]
      exact hi.status_task i r h
    · exact hi.status_task j rj (hj.symm.trans hl).symm
  · intro j rj hj hs p hpp
    have htransfer : (∃ rp, s.proms[p]? = some rp ∧ rp.status ≠ .pending) →
        ∃ rp, (⟨s.proms.set i ⟨r.kind, r.task, r.status, false⟩,
          if s.cache = some i then none else s.cache,
          s.destr⟩ : LruState).proms[p]? = some rp ∧ rp.status ≠ .pending := by
      rintro ⟨rp, hrp, hpend⟩
      rcases set_lookup_cases ⟨r.kind, r.task, r.status, false⟩ h p with
        ⟨heq, hl⟩ | ⟨hne, hl⟩
      · have hre : rp = r := Option.some.inj ((heq ▸ hrp).symm.trans h)
        exact ⟨⟨r.kind, r.task, r.status, false⟩, hl, hre ▸ hpend⟩
      · exact ⟨rp, hl.trans hrp, hpend⟩
    rcases set_lookup_cases ⟨r.kind, r.task, r.status, false⟩ h j with
      ⟨heq, hl⟩ | ⟨hne, hl⟩
    · have hre : rj = ⟨r.kind, r.task, r.status, false⟩ :=
        Option.some.inj (hj.symm.trans hl)
      have hs2 : r.task ≠ .notStarted := by rw [hre] at hs; exact hs
      have hpp2 : parentOfRec r = some p := by rw [hre] at hpp; exact hpp
      exact htransfer (hi.started_parent i r h hs2 p hpp2)
    · exact htransfer (hi.started_parent j rj (hj.symm.trans hl).symm hs p hpp)
  · intro j rj hj hcp2
    rcases set_lookup_cases ⟨r.kind, r.task, r.status, false⟩ h j with
      ⟨heq, hl⟩ | ⟨hne, hl⟩
    · have hre : rj = ⟨r.kind, r.task, r.status, false⟩ :=
        Option.some.inj (hj.symm.trans hl)
      rw [hre]
      exact hfin
    · exact hi.cleanup_finished j rj (hj.symm.trans hl).symm hcp2
  · intro j rj hj hu
    rcases set_lookup_cases ⟨r.kind, r.task, r.status, false⟩ h j with
      ⟨heq, hl⟩ | ⟨hne, hl⟩
    · have hre : rj = ⟨r.kind, r.task, r.status, false⟩ :=
        Option.some.inj (hj.symm.trans hl)
      rw [hre] at hu
      rcases hu with h1 | h1
      · exact absurd (hfin.symm.trans h1) (by decide)
      · exact absurd (hfin.symm.trans h1) (by decide)
    · obtain ⟨tp, htop, hrtg⟩ :=
        hi.unfinished_chain j rj (hj.symm.trans hl).symm hu
      by_cases hsc : s.cache = some i
      · have htpi : tp = i := by
          rw [topOf, hsc] at htop
          exact (Option.some.inj htop).symm
        subst htpi
        rcases Relation.ReflTransGen.cases_head hrtg with heqq | ⟨k, hik, hkj⟩
        · exact absurd heqq.symm hne
        · obtain ⟨rc, hrc, hrk⟩ := hi.cache_parent tp hsc
          have hrcr : rc = r := Option.some.inj (hrc.symm.trans h)
          have hkk : r.kind = .construction s.destr := hrcr ▸ hrk
          have hik2 : s.destr = some k := by
            rw [parentRel, parentOf, h] at hik
            have hik3 : parentOfRec r = some k := hik
            have hpr : parentOfRec r = s.destr := by
              unfold parentOfRec
              rw [hkk]
            exact hpr.symm.trans hik3
          refine ⟨k, ?_, rtg_of_parentOf_eq hpe hkj⟩
          rw [topOf]
          rw [if_pos hsc]
          exact hik2
      · refine ⟨tp, ?_, rtg_of_parentOf_eq hpe hrtg⟩
        rw [topOf] at htop ⊢
        rw [if_neg hsc]
        exact htop

/-- Every transition preserves the invariant. -/
theorem inv_step {s t : LruState} (hi : Inv s) (hst : Step s t) : Inv t := by
  cases hst with
  | getHit c hc => exact hi
  | deleteMiss hc => exact hi
  | getMiss hc => exact inv_getMiss hi hc
  | deleteHit c hc => exact inv_deleteHit hi hc
  | cleanupRun i r h hcp => exact inv_cleanupRun hi h hcp
  | ctorStart i r pre h hk ht hpre =>
    have hpend : r.status = .pending := (hi.status_task i r h).mpr (Or.inl ht)
    refine inv_setProm_task hi _ h rfl ?_ ?_ ?_ ?_ ?_
    · exact ⟨fun _ => Or.inr rfl, fun _ => hpend⟩
    · exact fun hne => hne
    · intro _ p hpp
      have hpr : parentOfRec r = some p := hpp
      have hps : pre = some p := by
        unfold parentOfRec at hpr
        rw [hk] at hpr
        exact hpr
      rw [hps] at hpre
      exact hpre
    · exact fun _ => Or.inl ht
    · intro hcp2
      have hfin := hi.cleanup_finished i r h hcp2
      exact absurd (ht.symm.trans hfin) (by decide)
  | ctorFinishOk i r pre h hk ht =>
    refine inv_setProm_task hi _ h rfl ?_ ?_ ?_ ?_ ?_
    · exact ⟨fun h1 => absurd h1 (by simp), fun h2 => absurd h2 (by simp [unfinishedTask])⟩
    · exact fun _ hc => absurd hc (by simp)
    · intro _ p hpp
      exact hi.started_parent i r h
        (fun hh => absurd (ht.symm.trans hh) (by decide)) p hpp
    · exact fun h2 => absurd h2 (by simp [unfinishedTask])
    · intro hcp2
      have hfin := hi.cleanup_finished i r h hcp2
      exact absurd (ht.symm.trans hfin) (by decide)
  | ctorFinishErr i r pre h hk ht =>
    refine inv_setProm_task hi _ h rfl ?_ ?_ ?_ ?_ ?_
    · exact ⟨fun h1 => absurd h1 (by simp), fun h2 => absurd h2 (by simp [unfinishedTask])⟩
    · exact fun _ hc => absurd hc (by simp)
    · intro _ p hpp
      exact hi.started_parent i r h
        (fun hh => absurd (ht.symm.trans hh) (by decide)) p hpp
    · exact fun h2 => absurd h2 (by simp [unfinishedTask])
    · exact fun _ => rfl
  | dtorStart i r src rsrc h hk ht hsrc hok =>
    have hpend : r.status = .pending := (hi.status_task i r h).mpr (Or.inl ht)
    refine inv_setProm_task hi _ h rfl ?_ ?_ ?_ ?_ ?_
    · exact ⟨fun _ => Or.inr rfl, fun _ => hpend⟩
    · exact fun hne => hne
    · intro _ p hpp
      have hpr : parentOfRec r = some p := hpp
      have hps : src = p := by
        unfold parentOfRec at hpr
        rw [hk] at hpr
        exact Option.some.inj hpr
      exact ⟨rsrc, hps ▸ hsrc, fun hc => absurd (hok.symm.trans hc) (by decide)⟩
    · exact fun _ => Or.inl ht
    · intro hcp2
      have hfin := hi.cleanup_finished i r h hcp2
      exact absurd (ht.symm.trans hfin) (by decide)
  | dtorSkip i r src rsrc h hk ht hsrc herr =>
    refine inv_setProm_task hi _ h rfl ?_ ?_ ?_ ?_ ?_
    · exact ⟨fun h1 => absurd h1 (by simp), fun h2 => absurd h2 (by simp [unfinishedTask])⟩
    · exact fun _ hc => absurd hc (by simp)
    · intro _ p hpp
      have hpr : parentOfRec r = some p := hpp
      have hps : src = p := by
        unfold parentOfRec at hpr
        rw [hk] at hpr
        exact Option.some.inj hpr
      exact ⟨rsrc, hps ▸ hsrc, fun hc => absurd (herr.symm.trans hc) (by decide)⟩
    · exact fun h2 => absurd h2 (by simp [unfinishedTask])
    · intro hcp2
      have hfin := hi.cleanup_finished i r h hcp2
      exact absurd (ht.symm.trans hfin) (by decide)
  | dtorFinishOk i r src h hk ht =>
    refine inv_setProm_task hi _ h rfl ?_ ?_ ?_ ?_ ?_
    · exact ⟨fun h1 => absurd h1 (by simp), fun h2 => absurd h2 (by simp [unfinishedTask])⟩
    · exact fun _ hc => absurd hc (by simp)
    · intro _ p hpp
      exact hi.started_parent i r h
        (fun hh => absurd (ht.symm.trans hh) (by decide)) p hpp
    · exact fun h2 => absurd h2 (by simp [unfinishedTask])
    · intro hcp2
      have hfin := hi.cleanup_finished i r h hcp2
      exact absurd (ht.symm.trans hfin) (by decide)
  | dtorFinishErr i r src h hk ht =>
    refine inv_setProm_task hi _ h rfl ?_ ?_ ?_ ?_ ?_
    · exact ⟨fun h1 => absurd h1 (by simp), fun h2 => absurd h2 (by simp [unfinishedTask])⟩
    · exact fun _ hc => absurd hc (by simp)
    · intro _ p hpp
      exact hi.started_parent i r h
        (fun hh => absurd (ht.symm.trans hh) (by decide)) p hpp
    · exact fun h2 => absurd h2 (by simp [unfinishedTask])
    · intro hcp2
      have hfin := hi.cleanup_finished i r h hcp2
      exact absurd (ht.symm.trans hfin) (by decide)

/-- The invariant holds in the empty initial state. -/
theorem inv_init : Inv initState := by
  refine ⟨?_, ?_, ?_, ?_, ?_⟩
  · intro c hcc
    cases hcc
  · intro j rj hj
    simp [initState] at hj
  · intro j rj hj
    simp [initState] at hj
  · intro j rj hj
    simp [initState] at hj
  · intro j rj hj
    simp [initState] at hj

/-- Every reachable state satisfies the invariant. -/
theorem inv_reachable {s : LruState} (h : Reachable s) : Inv s := by
  induction h with
  | init => exact inv_init
  | step _ hst ih => exact inv_step ih hst

/-- Walking the ancestor chain from a promise whose task has started, every
strict ancestor has settled. -/
theorem settled_of_rtg {s : LruState} (hi : Inv s) {i j : ℕ}
    (hpath : Relation.ReflTransGen (parentRel s) i j) :
    (∃ ri, s.proms[i]? = some ri ∧ ri.task ≠ .notStarted) →
    i = j ∨ ∃ rj, s.proms[j]? = some rj ∧ rj.status ≠ .pending := by
  induction hpath using Relation.ReflTransGen.head_induction_on with
  | refl => exact fun _ => Or.inl rfl
  | @head a c hstep hrest ih =>
    intro ⟨ra, hra, hstarted⟩
    have hpc : parentOfRec ra = some c := by
      rw [parentRel, parentOf, hra] at hstep
      exact hstep
    obtain ⟨rc, hrc, hcpend⟩ := hi.started_parent a ra hra hstarted c hpc
    have hcstarted : rc.task ≠ .notStarted := by
      intro hns
      exact hcpend ((hi.status_task c rc hrc).mpr (Or.inl hns))
    rcases ih ⟨rc, hrc, hcstarted⟩ with heq | hsettled
    · exact Or.inr ⟨rc, heq ▸ hrc, hcpend⟩
    · exact Or.inr hsettled

/-- Two promises reachable from the same chain top along the (functional)
parent relation are comparable. -/
theorem rtg_comparable {s : LruState} {t i j : ℕ}
    (hti : Relation.ReflTransGen (parentRel s) t i)
    (htj : Relation.ReflTransGen (parentRel s) t j) :
    Relation.ReflTransGen (parentRel s) i j ∨
    Relation.ReflTransGen (parentRel s) j i := by
  induction hti using Relation.ReflTransGen.head_induction_on with
  | refl => exact Or.inl htj
  | @head a c hstep hrest ih =>
    rcases Relation.ReflTransGen.cases_head htj with heq | ⟨c2, hstep2, hrest2⟩
    · right
      rw [← heq]
      exact Relation.ReflTransGen.head hstep hrest
    · have hcc : c = c2 := Option.some.inj (hstep.symm.trans hstep2)
      exact ih (hcc ▸ hrest2)
  -- we consume htj inside; the recursion needs htj generalized

/-- At most one task of the key is running at a time. -/
theorem running_unique {s : LruState} (hi : Inv s) {i j : ℕ} {ri rj : PRec}
    (hli : s.proms[i]? = some ri) (hlj : s.proms[j]? = some rj)
    (hri : ri.task = .running) (hrj : rj.task = .running) : i = j := by
  obtain ⟨tp1, htop1, hrtg1⟩ := hi.unfinished_chain i ri hli (Or.inr hri)
  obtain ⟨tp2, htop2, hrtg2⟩ := hi.unfinished_chain j rj hlj (Or.inr hrj)
  have htpe : tp1 = tp2 := Option.some.inj (htop1.symm.trans htop2)
  subst htpe
  rcases rtg_comparable hrtg1 hrtg2 with hij | hji
  · rcases settled_of_rtg hi hij
        ⟨ri, hli, fun hh => absurd (hri.symm.trans hh) (by decide)⟩ with
      heq | ⟨rj2, hlj2, hpend⟩
    · exact heq
    · have : rj2 = rj := Option.some.inj (hlj2.symm.trans hlj)
      subst this
      exact absurd ((hi.status_task j rj2 hlj2).mpr (Or.inr hrj)) hpend
  · rcases settled_of_rtg hi hji
        ⟨rj, hlj, fun hh => absurd (hrj.symm.trans hh) (by decide)⟩ with
      heq | ⟨ri2, hli2, hpend⟩
    · exact heq.symm
    · have : ri2 = ri := Option.some.inj (hli2.symm.trans hli)
      subst this
      exact absurd ((hi.status_task i ri2 hli2).mpr (Or.inr hri)) hpend

/-! ## C3: serialisation of constructors and destructors per key -/

/-- C3: in every state of the per-key LRU transition system reachable
under any interleaving of get and delete calls and asynchronous
completions, at most one constructor is running, at most one destructor
is running, and whenever a constructor start is enabled (its promise
exists, has not started, and its prerequisite has settled - which is how
get chains construction after the pending destruction, whether that
destruction fulfilled or rejected), no destructor is running: a
constructor never starts before a previously started destructor for the
same key has completed. -/
theorem lruSerialisation (s : LruState) (hs : Reachable s) :
    (∀ (i j : ℕ) (ri rj : PRec) (prei prej : Option ℕ),
        s.proms[i]? = some ri → s.proms[j]? = some rj →
        ri.kind = .construction prei → rj.kind = .construction prej →
        ri.task = .running → rj.task = .running → i = j) ∧
    (∀ (i j : ℕ) (ri rj : PRec) (srci srcj : ℕ),
        s.proms[i]? = some ri → s.proms[j]? = some rj →
        ri.kind = .destruction srci → rj.kind = .destruction srcj →
        ri.task = .running → rj.task = .running → i = j) ∧
    (∀ (i : ℕ) (r : PRec) (pre : Option ℕ),
        s.proms[i]? = some r → r.kind = .construction pre →
        r.task = .notStarted → prereqSettled s pre →
        ∀ (j : ℕ) (rj : PRec) (src : ℕ), s.proms[j]? = some rj →
          rj.kind = .destruction src → rj.task ≠ .running) := by
  have hi := inv_reachable hs
  refine ⟨?_, ?_, ?_⟩
  · intro i j ri rj _ _ hli hlj _ _ hri hrj
    exact running_unique hi hli hlj hri hrj
  · intro i j ri rj _ _ hli hlj _ _ hri hrj
    exact running_unique hi hli hlj hri hrj
  · intro i r pre hli hk ht hpre j rj src hlj hkj hrun
    obtain ⟨tp1, htop1, hrtg1⟩ := hi.unfinished_chain i r hli (Or.inl ht)
    obtain ⟨tp2, htop2, hrtg2⟩ := hi.unfinished_chain j rj hlj (Or.inr hrun)
    have htpe : tp1 = tp2 := Option.some.inj (htop1.symm.trans htop2)
    subst htpe
    rcases rtg_comparable hrtg1 hrtg2 with hij | hji
    · rcases Relation.ReflTransGen.cases_head hij with heq | ⟨k, hik, hkj2⟩
      · have hre : r = rj := Option.some.inj ((heq ▸ hli).symm.trans hlj)
        have hkk : r.kind = .destruction src := by
          rw [hre]
          exact hkj
        exact absurd (hk.symm.trans hkk) (by simp)
      · have hpk : pre = some k := by
          rw [parentRel, parentOf, hli] at hik
          have hik3 : parentOfRec r = some k := hik
          unfold parentOfRec at hik3
          rw [hk] at hik3
          exact hik3
        rw [hpk] at hpre
        obtain ⟨rd, hrd, hrdpend⟩ := hpre
        have hrdstarted : rd.task ≠ .notStarted := fun hns =>
          hrdpend ((hi.status_task k rd hrd).mpr (Or.inl hns))
        rcases settled_of_rtg hi hkj2 ⟨rd, hrd, hrdstarted⟩ with
          heq2 | ⟨rj2, hlj2, hpend⟩
        · have hre : rd = rj := Option.some.inj ((heq2 ▸ hrd).symm.trans hlj)
          refine hrdpend ?_
          rw [hre]
          exact (hi.status_task j rj hlj).mpr (Or.inr hrun)
        · have hre : rj2 = rj := Option.some.inj (hlj2.symm.trans hlj)
          refine hpend ?_
          rw [hre]
          exact (hi.status_task j rj hlj).mpr (Or.inr hrun)
    · rcases settled_of_rtg hi hji
          ⟨rj, hlj, fun hh => absurd (hrun.symm.trans hh) (by decide)⟩ with
        heq | ⟨ri2, hli2, hpend⟩
      · have hre : rj = r := Option.some.inj ((heq ▸ hlj).symm.trans hli)
        have hkk : r.kind = .destruction src := by
          rw [← hre]
          exact hkj
        exact absurd (hk.symm.trans hkk) (by simp)
      · have hre : ri2 = r := Option.some.inj (hli2.symm.trans hli)
        refine hpend ?_
        rw [hre]
        exact (hi.status_task i r hli).mpr (Or.inl ht)

/-- Witness for C3: the state reached by one get (cache miss) followed by
the start of its constructor is reachable, and the theorem instantiates
on it. -/
theorem lruSerialisation_witness :
    Reachable (⟨[⟨.construction none, .running, .pending, false⟩],
      some 0, none⟩ : LruState) ∧ (0 : ℕ) = 0 := by
  have h1 : Step initState
      ⟨[⟨.construction none, .notStarted, .pending, false⟩], some 0, none⟩ :=
    Step.getMiss initState rfl
  have h2 : Step ⟨[⟨.construction none, .notStarted, .pending, false⟩], some 0, none⟩
      ⟨[⟨.construction none, .running, .pending, false⟩], some 0, none⟩ :=
    Step.ctorStart _ 0 ⟨.construction none, .notStarted, .pending, false⟩ none
      rfl rfl rfl trivial
  have hreach : Reachable
      (⟨[⟨.construction none, .running, .pending, false⟩], some 0, none⟩ : LruState) :=
    Reachable.step (Reachable.step Reachable.init h1) h2
  exact ⟨hreach, (lruSerialisation _ hreach).1 0 0
    ⟨.construction none, .running, .pending, false⟩
    ⟨.construction none, .running, .pending, false⟩ none none
    rfl rfl rfl rfl rfl rfl⟩

/-! ## C8: the destructions entry is never cleared -/

/-- C8: a concrete reachable execution - get(k); constructor runs and
fulfills; delete(k); destructor runs and completes; get(k) again - ends
in a state where the destruction promise of the key has completed
(task finished, status ok) yet the destructions map still holds it, and
the key is simultaneously back in the cache: the code has no
destructions.delete, so the entry outlives the completion of the
destruction, contradicting the claim (and the comment on Utils.ts line
111, which asserts a cached key is never still in destructions). -/
theorem lruDestructionsEntryPersists :
    Reachable (⟨[⟨.construction none, .finished, .ok, false⟩,
                 ⟨.destruction 0, .finished, .ok, false⟩,
                 ⟨.construction (some 1), .notStarted, .pending, false⟩],
                some 2, some 1⟩ : LruState) ∧
    (⟨[⟨.construction none, .finished, .ok, false⟩,
       ⟨.destruction 0, .finished, .ok, false⟩,
       ⟨.construction (some 1), .notStarted, .pending, false⟩],
      some 2, some 1⟩ : LruState).destr = some 1 ∧
    (⟨[⟨.construction none, .finished, .ok, false⟩,
       ⟨.destruction 0, .finished, .ok, false⟩,
       ⟨.construction (some 1), .notStarted, .pending, false⟩],
      some 2, some 1⟩ : LruState).proms[1]?
      = some ⟨.destruction 0, .finished, .ok, false⟩ ∧
    (⟨[⟨.construction none, .finished, .ok, false⟩,
       ⟨.destruction 0, .finished, .ok, false⟩,
       ⟨.construction (some 1), .notStarted, .pending, false⟩],
      some 2, some 1⟩ : LruState).cache = some 2 := by
  have h1 : Step initState
      ⟨[⟨.construction none, .notStarted, .pending, false⟩], some 0, none⟩ :=
    Step.getMiss initState rfl
  have h2 : Step ⟨[⟨.construction none, .notStarted, .pending, false⟩], some 0, none⟩
      ⟨[⟨.construction none, .running, .pending, false⟩], some 0, none⟩ :=
    Step.ctorStart _ 0 ⟨.construction none, .notStarted, .pending, false⟩ none
      rfl rfl rfl trivial
  have h3 : Step ⟨[⟨.construction none, .running, .pending, false⟩], some 0, none⟩
      ⟨[⟨.construction none, .finished, .ok, false⟩], some 0, none⟩ :=
    Step.ctorFinishOk _ 0 ⟨.construction none, .running, .pending, false⟩ none
      rfl rfl rfl
  have h4 : Step ⟨[⟨.construction none, .finished, .ok, false⟩], some 0, none⟩
      ⟨[⟨.construction none, .finished, .ok, false⟩,
        ⟨.destruction 0, .notStarted, .pending, false⟩], none, some 1⟩ :=
    Step.deleteHit _ 0 rfl
  have h5 : Step ⟨[⟨.construction none, .finished, .ok, false⟩,
        ⟨.destruction 0, .notStarted, .pending, false⟩], none, some 1⟩
      ⟨[⟨.construction none, .finished, .ok, false⟩,
        ⟨.destruction 0, .running, .pending, false⟩], none, some 1⟩ :=
    Step.dtorStart _ 1 ⟨.destruction 0, .notStarted, .pending, false⟩ 0
      ⟨.construction none, .finished, .ok, false⟩ rfl rfl rfl rfl rfl
  have h6 : Step ⟨[⟨.construction none, .finished, .ok, false⟩,
        ⟨.destruction 0, .running, .pending, false⟩], none, some 1⟩
      ⟨[⟨.construction none, .finished, .ok, false⟩,
        ⟨.destruction 0, .finished, .ok, false⟩], none, some 1⟩ :=
    Step.dtorFinishOk _ 1 ⟨.destruction 0, .running, .pending, false⟩ 0
      rfl rfl rfl
  have h7 : Step ⟨[⟨.construction none, .finished, .ok, false⟩,
        ⟨.destruction 0, .finished, .ok, false⟩], none, some 1⟩
      ⟨[⟨.construction none, .finished, .ok, false⟩,
        ⟨.destruction 0, .finished, .ok, false⟩,
        ⟨.construction (some 1), .notStarted, .pending, false⟩],
       some 2, some 1⟩ :=
    Step.getMiss _ rfl
  exact ⟨Reachable.step (Reachable.step (Reachable.step (Reachable.step
    (Reachable.step (Reachable.step (Reachable.step Reachable.init h1) h2) h3)
      h4) h5) h6) h7, rfl, rfl, rfl⟩

end LruForAsync

end HlsVodSpec
